import Mathlib

/-!
Verification of the regex-to-NFA engine in `src/RegexToNFA/regex_to_nfa.py`.

Python `State` objects are identified by allocation order: the arena is the
list of every state created so far during one construction call, and a
state's identity is its index in that list.  `State.transitions` is a Python
dict from a one-character string to a list of states; Python dicts preserve
insertion order, and assignment to an existing key updates the value in
place, which `dictSet` mirrors.  Functions that mutate states in place in
Python instead thread the arena explicitly here.
-/

namespace RegexToNFA

/-- Python exceptions the module can raise: `IndexError` from `list.pop()`
on an empty list (lines 66, 85/86, 89/90, 93), and the explicit
`raise ValueError("Invalid regular expression: ...")` at line 97. -/
inductive PyErr where
  | indexError : PyErr
  | valueError : PyErr
  deriving DecidableEq

/-- The `State` class (lines 7-10): a transition dict (insertion-ordered
association list from symbol to ordered target list) and an accepting flag.
Targets are state identities (arena indices). -/
structure State where
  transitions : List (Char × List Nat)
  is_accept : Bool
  deriving DecidableEq

/-- The `NFA` class (lines 12-15): references to a start and an accept
state, by identity. -/
structure NFA where
  start : Nat
  accept : Nat
  deriving DecidableEq

/-- The arena of all states allocated so far; identity = index. -/
abbrev Arena := List State

/-- Read a state from the arena (out-of-range reads never happen on the
reachable states; the default keeps the function total). -/
def getState (a : Arena) (i : Nat) : State :=
  a.getD i ⟨[], false⟩

/-- Apply `f` to the state at index `i`, in place. -/
def modifyIdx (a : Arena) (i : Nat) (f : State → State) : Arena :=
  match a, i with
  | [], _ => []
  | x :: xs, 0 => f x :: xs
  | x :: xs, n + 1 => x :: modifyIdx xs n f

/-- `State()`: allocate a fresh state with no transitions, not accepting
(lines 8-10); returns its identity and the grown arena. -/
def newState (a : Arena) : Nat × Arena :=
  (a.length, a ++ [⟨[], false⟩])

/-- Python dict assignment `d[k] = v`: update in place if the key exists
(keeping insertion position), else append the binding at the end. -/
def dictSet (m : List (Char × List Nat)) (k : Char) (v : List Nat) :
    List (Char × List Nat) :=
  match m with
  | [] => [(k, v)]
  | (k', v') :: rest =>
    if k' = k then (k', v) :: rest else (k', v') :: dictSet rest k v

/-- The epsilon symbol used by the source (`'ε'`). -/
def epsChar : Char := 'ε'

/-- `state.transitions[k] = v` where `state` is arena index `s`. -/
def setTrans (a : Arena) (s : Nat) (k : Char) (v : List Nat) : Arena :=
  modifyIdx a s fun st => { st with transitions := dictSet st.transitions k v }

/-- `create_basic_nfa(char)` (lines 18-22). -/
def create_basic_nfa (ch : Char) (a : Arena) : NFA × Arena :=
  let (start, a1) := newState a
  let (accept, a2) := newState a1
  let a3 := setTrans a2 start ch [accept]
  (⟨start, accept⟩, a3)

/-- `apply_concatenation(nfa1, nfa2)` (lines 24-26). -/
def apply_concatenation (nfa1 nfa2 : NFA) (a : Arena) : NFA × Arena :=
  let a1 := setTrans a nfa1.accept epsChar [nfa2.start]
  (⟨nfa1.start, nfa2.accept⟩, a1)

/-- `apply_union(nfa1, nfa2)` (lines 28-34). -/
def apply_union (nfa1 nfa2 : NFA) (a : Arena) : NFA × Arena :=
  let (start, a1) := newState a
  let (accept, a2) := newState a1
  let a3 := setTrans a2 start epsChar [nfa1.start, nfa2.start]
  let a4 := setTrans a3 nfa1.accept epsChar [accept]
  let a5 := setTrans a4 nfa2.accept epsChar [accept]
  (⟨start, accept⟩, a5)

/-- `apply_kleene_star(nfa)` (lines 36-41). -/
def apply_kleene_star (nfa : NFA) (a : Arena) : NFA × Arena :=
  let (start, a1) := newState a
  let (accept, a2) := newState a1
  let a3 := setTrans a2 start epsChar [nfa.start, accept]
  let a4 := setTrans a3 nfa.accept epsChar [nfa.start, accept]
  (⟨start, accept⟩, a4)

/-- The literal alphabet `chars = set("abcdefghijklmnopqrstuvwxyz0123456789")`
(line 47). -/
def litChars : List Char := "abcdefghijklmnopqrstuvwxyz0123456789".toList

/-- `char in chars` (lines 53-54, 59). -/
def isLit (c : Char) : Bool := litChars.contains c

/-- `precedence = {'*': 3, '.': 2, '|': 1}` (line 44); `none` models
`char not in precedence`. -/
def precedence? (c : Char) : Option Nat :=
  if c == '*' then some 3
  else if c == '.' then some 2
  else if c == '|' then some 1
  else none

/-- The normalization pass (lines 49-56): every character is kept, and an
explicit `'.'` is inserted after position `i` when `regex[i]` is a literal,
`')'` or `'*'` and `regex[i+1]` is a literal or `'('`. -/
def addConcat : List Char → List Char
  | [] => []
  | [c] => [c]
  | c :: c2 :: rest =>
    if (isLit c || c == ')' || c == '*') && (isLit c2 || c2 == '(') then
      c :: '.' :: addConcat (c2 :: rest)
    else
      c :: addConcat (c2 :: rest)

/-- The `')'` branch's while loop (lines 64-65): pop operators to the output
until the stack is empty or its top is `'('`.  The stack's head is its top. -/
def popToParen : List Char → List Char → List Char × List Char
  | output, [] => (output, [])
  | output, o :: rest =>
    if o == '(' then (output, o :: rest)
    else popToParen (output ++ [o]) rest

/-- The operator branch's while loop (lines 68-70): pop operators to the
output while the stack's top is not `'('` and its precedence is at least
`p`.  On every reachable stack the top is one of `'(' '*' '.' '|'`, so the
`getD 0` default is never the value actually compared. -/
def popGE (p : Nat) : List Char → List Char → List Char × List Char
  | output, [] => (output, [])
  | output, o :: rest =>
    if o != '(' && decide (p ≤ (precedence? o).getD 0) then
      popGE p (output ++ [o]) rest
    else (output, o :: rest)

/-- The main scanning loop of `regex_to_postfix` (lines 58-71), over the
normalized character list, carrying the output and operator stack.  A `')'`
with an empty remaining stack models `operators.pop()` raising `IndexError`
(line 66); a character that is neither a literal, a parenthesis, nor an
operator is silently skipped, exactly as in the source. -/
def shunt : List Char → List Char → List Char → Except PyErr (List Char × List Char)
  | [], output, ops => Except.ok (output, ops)
  | c :: cs, output, ops =>
    if isLit c then
      shunt cs (output ++ [c]) ops
    else if c == '(' then
      shunt cs output ('(' :: ops)
    else if c == ')' then
      match popToParen output ops with
      | (output', ops') =>
        match ops' with
        | [] => Except.error PyErr.indexError
        | _ :: rest => shunt cs output' rest
    else
      match precedence? c with
      | some p =>
        match popGE p output ops with
        | (output', ops') => shunt cs output' (c :: ops')
      | none => shunt cs output ops

/-- `regex_to_postfix(regex)` (lines 43-75): normalize, run the scanning
loop, then pop every remaining operator to the output (lines 72-73) — the
stack's head is its top, so the leftover stack is appended as is.  Note
that leftover `'('` characters are appended to the output too: the source
has no end-of-input check for an unmatched `'('`. -/
def regex_to_rpn (regex : List Char) : Except PyErr (List Char) :=
  match shunt (addConcat regex) [] [] with
  | Except.error e => Except.error e
  | Except.ok (output, ops) => Except.ok (output ++ ops)

/-- `char.isalnum()` (line 82).  Every character `regex_to_postfix` can emit
is a lowercase ASCII letter, a digit, or one of `'.' '|' '*' '('`, and on
those this agrees with Python's `str.isalnum`. -/
def pyIsAlnum (c : Char) : Bool := c.isAlpha || c.isDigit

/-- The token loop of `thompsons_construction` (lines 81-94): a stack
machine over NFA fragments.  `stack.pop()` on a stack that is too short
raises `IndexError`; a character that matches no branch (such as a leftover
`'('`) is silently skipped, exactly as in the source. -/
def assemble : List Char → List NFA → Arena → Except PyErr (List NFA × Arena)
  | [], stack, a => Except.ok (stack, a)
  | c :: cs, stack, a =>
    if pyIsAlnum c then
      match create_basic_nfa c a with
      | (nfa, a') => assemble cs (nfa :: stack) a'
    else if c == '.' then
      match stack with
      | nfa2 :: nfa1 :: rest =>
        match apply_concatenation nfa1 nfa2 a with
        | (nfa, a') => assemble cs (nfa :: rest) a'
      | _ => Except.error PyErr.indexError
    else if c == '|' then
      match stack with
      | nfa2 :: nfa1 :: rest =>
        match apply_union nfa1 nfa2 a with
        | (nfa, a') => assemble cs (nfa :: rest) a'
      | _ => Except.error PyErr.indexError
    else if c == '*' then
      match stack with
      | nfa :: rest =>
        match apply_kleene_star nfa a with
        | (nfa', a') => assemble cs (nfa' :: rest) a'
      | [] => Except.error PyErr.indexError
    else
      assemble cs stack a

/-- The final stack check of `thompsons_construction` (lines 96-99):
`raise ValueError(...)` unless exactly one fragment remains. -/
def finalize (stack : List NFA) (a : Arena) : Except PyErr (NFA × Arena) :=
  match stack with
  | [nfa] => Except.ok (nfa, a)
  | _ => Except.error PyErr.valueError

/-- `thompsons_construction(regex)` (lines 77-99). -/
def thompsons_construction (regex : String) : Except PyErr (NFA × Arena) :=
  match regex_to_rpn regex.toList with
  | Except.error e => Except.error e
  | Except.ok rpn =>
    match assemble rpn [] [] with
    | Except.error e => Except.error e
    | Except.ok (stack, a) => finalize stack a

/-- `nfa.accept.is_accept = True` (line 147), the single accept-marking the
caller performs after construction succeeds. -/
def markAccept (nfa : NFA) (a : Arena) : Arena :=
  modifyIdx a nfa.accept fun st => { st with is_accept := true }

/-- The whole observable pipeline run by `on_generate_click` (lines 146-147):
Thompson's construction followed by marking the accept state. -/
def thompson (regex : String) : Except PyErr (NFA × Arena) :=
  match thompsons_construction regex with
  | Except.error e => Except.error e
  | Except.ok (nfa, a) => Except.ok (nfa, markAccept nfa a)

/-- The code's realization of the spec's MalformedExpression error: the
explicit `ValueError` raised by the final stack check (line 97), the only
deliberately raised error in the module. -/
def malformedExpressionErr : PyErr := PyErr.valueError

/-! ### Arena helper lemmas -/

theorem getState_cons_succ (x : State) (xs : Arena) (n : Nat) :
    getState (x :: xs) (n + 1) = getState xs n := rfl

theorem modifyIdx_length (a : Arena) (i : Nat) (f : State → State) :
    (modifyIdx a i f).length = a.length := by
  induction a generalizing i with
  | nil => rfl
  | cons x xs ih =>
    cases i with
    | zero => rfl
    | succ n => simpa [modifyIdx] using ih n

theorem getState_modifyIdx_self (a : Arena) (i : Nat) (f : State → State)
    (h : i < a.length) : getState (modifyIdx a i f) i = f (getState a i) := by
  induction a generalizing i with
  | nil => simp at h
  | cons x xs ih =>
    cases i with
    | zero => rfl
    | succ n =>
      rw [show modifyIdx (x :: xs) (n + 1) f = x :: modifyIdx xs n f from rfl,
        getState_cons_succ, getState_cons_succ]
      exact ih n (by simpa using h)

theorem getState_modifyIdx_ne (a : Arena) (i j : Nat) (f : State → State)
    (h : j ≠ i) : getState (modifyIdx a i f) j = getState a j := by
  induction a generalizing i j with
  | nil => rfl
  | cons x xs ih =>
    cases i with
    | zero =>
      cases j with
      | zero => exact absurd rfl h
      | succ m => rfl
    | succ n =>
      cases j with
      | zero => rfl
      | succ m =>
        rw [show modifyIdx (x :: xs) (n + 1) f = x :: modifyIdx xs n f from rfl,
          getState_cons_succ, getState_cons_succ]
        exact ih n m (by omega)

theorem getState_snoc_lt (a : Arena) (e : State) (i : Nat) (h : i < a.length) :
    getState (a ++ [e]) i = getState a i := by
  induction a generalizing i with
  | nil => simp at h
  | cons x xs ih =>
    cases i with
    | zero => rfl
    | succ n =>
      rw [List.cons_append, getState_cons_succ, getState_cons_succ]
      exact ih n (by simpa using h)

theorem getState_snoc_self (a : Arena) (e : State) :
    getState (a ++ [e]) a.length = e := by
  induction a with
  | nil => rfl
  | cons x xs ih =>
    rw [List.cons_append, List.length_cons, getState_cons_succ]
    exact ih

theorem setTrans_length (a : Arena) (s : Nat) (k : Char) (v : List Nat) :
    (setTrans a s k v).length = a.length :=
  modifyIdx_length a s _

theorem getState_setTrans_self (a : Arena) (s : Nat) (k : Char) (v : List Nat)
    (h : s < a.length) :
    getState (setTrans a s k v) s =
      ⟨dictSet (getState a s).transitions k v, (getState a s).is_accept⟩ :=
  getState_modifyIdx_self a s _ h

theorem getState_setTrans_ne (a : Arena) (s j : Nat) (k : Char) (v : List Nat)
    (h : j ≠ s) : getState (setTrans a s k v) j = getState a j :=
  getState_modifyIdx_ne a s j _ h

theorem is_accept_setTrans (a : Arena) (s : Nat) (k : Char) (v : List Nat)
    (i : Nat) :
    (getState (setTrans a s k v) i).is_accept = (getState a i).is_accept := by
  by_cases hsl : s < a.length
  · by_cases hij : i = s
    · subst hij; rw [getState_setTrans_self a i k v hsl]
    · rw [getState_setTrans_ne a s i k v hij]
  · by_cases hij : i = s
    · subst hij
      have : getState (setTrans a i k v) i = getState a i := by
        unfold getState
        rw [List.getD_eq_getElem?_getD, List.getD_eq_getElem?_getD,
          List.getElem?_eq_none (by simpa [setTrans_length] using hsl),
          List.getElem?_eq_none (by simpa using hsl)]
      rw [this]
    · rw [getState_setTrans_ne a s i k v hij]

/-! ### Shunting-loop helper lemmas -/

theorem popGE_eq (p : Nat) (output ops : List Char) :
    popGE p output ops =
      (output ++ ops.takeWhile (fun o => o != '(' && decide (p ≤ (precedence? o).getD 0)),
       ops.dropWhile (fun o => o != '(' && decide (p ≤ (precedence? o).getD 0))) := by
  induction ops generalizing output with
  | nil => simp [popGE]
  | cons o rest ih =>
    by_cases h : (o != '(' && decide (p ≤ (precedence? o).getD 0)) = true
    · rw [show popGE p output (o :: rest) = popGE p (output ++ [o]) rest from by
        simp [popGE, h], ih, List.takeWhile_cons, List.dropWhile_cons]
      simp [h]
    · rw [show popGE p output (o :: rest) = (output, o :: rest) from by
        simp [popGE, h], List.takeWhile_cons, List.dropWhile_cons]
      simp [h]

/-- Number of `'('` characters in an operator stack (= number of currently
open groups). -/
def numOpen : List Char → Nat
  | [] => 0
  | o :: rest => (if o == '(' then 1 else 0) + numOpen rest

theorem popToParen_no_open (output ops : List Char) (h : numOpen ops = 0) :
    (popToParen output ops).2 = [] := by
  induction ops generalizing output with
  | nil => rfl
  | cons o rest ih =>
    have ho : (o == '(') = false := by
      by_contra hc
      simp only [Bool.not_eq_false] at hc
      simp [numOpen, hc] at h
    rw [show popToParen output (o :: rest) = popToParen (output ++ [o]) rest from by
      simp [popToParen, ho]]
    exact ih _ (by simpa [numOpen, ho] using h)

theorem popToParen_open (output ops : List Char) (h : 0 < numOpen ops) :
    ∃ out' rest, popToParen output ops = (out', '(' :: rest) ∧
      numOpen rest = numOpen ops - 1 := by
  induction ops generalizing output with
  | nil => simp [numOpen] at h
  | cons o rest ih =>
    by_cases ho : (o == '(') = true
    · have : o = '(' := by simpa using ho
      subst this
      exact ⟨output, rest, by simp [popToParen], by simp [numOpen]⟩
    · rw [show popToParen output (o :: rest) = popToParen (output ++ [o]) rest from by
        simp [popToParen, ho]]
      have ho' : (o == '(') = false := by simpa using ho
      have hn : numOpen (o :: rest) = numOpen rest := by simp [numOpen, ho']
      rw [hn]
      exact ih _ (by simpa [numOpen, ho] using h)

theorem popGE_numOpen (p : Nat) (output ops : List Char) :
    numOpen (popGE p output ops).2 = numOpen ops := by
  induction ops generalizing output with
  | nil => rfl
  | cons o rest ih =>
    by_cases h : (o != '(' && decide (p ≤ (precedence? o).getD 0)) = true
    · have ho : (o == '(') = false := by
        rcases Bool.and_eq_true .. |>.mp h with ⟨h1, _⟩
        simpa using h1
      rw [show popGE p output (o :: rest) = popGE p (output ++ [o]) rest from by
        simp [popGE, h], ih]
      simp [numOpen, ho]
    · rw [show popGE p output (o :: rest) = (output, o :: rest) from by
        simp [popGE, h]]

/-! ### Parenthesis-balance machinery -/

/-- `goesNeg k cs = true` iff, scanning `cs` with `k` groups currently open,
some `')'` is reached with no group open (the string's parentheses are
unbalanced to the right). -/
def goesNeg : Nat → List Char → Bool
  | _, [] => false
  | k, c :: cs =>
    if c == ')' then (if k = 0 then true else goesNeg (k - 1) cs)
    else if c == '(' then goesNeg (k + 1) cs
    else goesNeg k cs

theorem goesNeg_cons (k : Nat) (c : Char) (cs : List Char) :
    goesNeg k (c :: cs) =
      if c == ')' then (if k = 0 then true else goesNeg (k - 1) cs)
      else if c == '(' then goesNeg (k + 1) cs
      else goesNeg k cs := by
  rw [goesNeg]

theorem goesNeg_dot (k : Nat) (cs : List Char) :
    goesNeg k ('.' :: cs) = goesNeg k cs := rfl

theorem goesNeg_addConcat :
    ∀ (cs : List Char) (k : Nat), goesNeg k (addConcat cs) = goesNeg k cs
  | [], _ => rfl
  | [_], _ => rfl
  | c :: c2 :: rest, k => by
    have ih := goesNeg_addConcat (c2 :: rest)
    by_cases h : ((isLit c || c == ')' || c == '*') && (isLit c2 || c2 == '(')) = true
    · rw [show addConcat (c :: c2 :: rest) = c :: '.' :: addConcat (c2 :: rest) from by
        simp [addConcat, h]]
      rw [goesNeg_cons, goesNeg_cons k c (c2 :: rest)]
      split_ifs <;> simp [goesNeg_dot, ih]
    · rw [show addConcat (c :: c2 :: rest) = c :: addConcat (c2 :: rest) from by
        simp [addConcat, h]]
      rw [goesNeg_cons, goesNeg_cons k c (c2 :: rest)]
      split_ifs <;> simp [ih]

theorem isLit_ne_rparen (c : Char) (h : isLit c = true) : (c == ')') = false := by
  by_contra hc
  simp only [Bool.not_eq_false] at hc
  have hcc : c = ')' := by simpa using hc
  subst hcc
  exact absurd h (by decide)

theorem isLit_ne_lparen (c : Char) (h : isLit c = true) : (c == '(') = false := by
  by_contra hc
  simp only [Bool.not_eq_false] at hc
  have hcc : c = '(' := by simpa using hc
  subst hcc
  exact absurd h (by decide)

theorem precedence_cases (c : Char) (p : Nat) (h : precedence? c = some p) :
    c = '*' ∨ c = '.' ∨ c = '|' := by
  unfold precedence? at h
  split_ifs at h with h1 h2 h3
  · exact Or.inl (by simpa using h1)
  · exact Or.inr (Or.inl (by simpa using h2))
  · exact Or.inr (Or.inr (by simpa using h3))

/-- If scanning the input ever meets a `')'` with no open group, the
shunting loop raises `IndexError` (from `operators.pop()` on an empty
stack, line 66). -/
theorem shunt_goesNeg :
    ∀ (cs output ops : List Char), goesNeg (numOpen ops) cs = true →
      shunt cs output ops = Except.error PyErr.indexError
  | [], _, _, h => by simp [goesNeg] at h
  | c :: cs, output, ops, h => by
    by_cases hlit : isLit c = true
    · have h1 := isLit_ne_rparen c hlit
      have h2 := isLit_ne_lparen c hlit
      rw [show shunt (c :: cs) output ops = shunt cs (output ++ [c]) ops from by
        simp [shunt, hlit]]
      rw [goesNeg_cons, h1, h2] at h
      simp only [Bool.false_eq_true, if_false] at h
      exact shunt_goesNeg cs _ ops h
    · by_cases hpl : (c == '(') = true
      · have hcc : c = '(' := by simpa using hpl
        subst hcc
        rw [show shunt ('(' :: cs) output ops = shunt cs output ('(' :: ops) from by
          simp [shunt, hlit]]
        rw [goesNeg_cons] at h
        simp only [show (('(' : Char) == ')') = false from rfl,
          show (('(' : Char) == '(') = true from rfl, Bool.false_eq_true,
          if_false, if_true] at h
        apply shunt_goesNeg cs output ('(' :: ops)
        rw [show numOpen ('(' :: ops) = numOpen ops + 1 from by
          simp [numOpen, Nat.add_comm]]
        exact h
      · by_cases hpr : (c == ')') = true
        · have hcc : c = ')' := by simpa using hpr
          subst hcc
          rw [goesNeg_cons] at h
          simp only [show ((')' : Char) == ')') = true from rfl, if_true] at h
          by_cases hk : numOpen ops = 0
          · rcases hpp : popToParen output ops with ⟨out', ops'⟩
            have hnil : ops' = [] := by
              have hz := popToParen_no_open output ops hk
              rw [hpp] at hz
              exact hz
            subst hnil
            simp [shunt, hlit, hpp]
          · simp only [hk, if_false] at h
            rcases popToParen_open output ops (Nat.pos_of_ne_zero hk) with
              ⟨out', rest, hpp', hnum⟩
            rw [show shunt (')' :: cs) output ops = shunt cs out' rest from by
              simp [shunt, hlit, hpp']]
            apply shunt_goesNeg cs out' rest
            rw [hnum]
            exact h
        · have hne1 : (c == ')') = false := by simpa using hpr
          have hne2 : (c == '(') = false := by simpa using hpl
          rcases hp : precedence? c with _ | p
          · rw [show shunt (c :: cs) output ops = shunt cs output ops from by
              simp [shunt, hlit, hpl, hpr, hp]]
            rw [goesNeg_cons, hne1, hne2] at h
            simp only [Bool.false_eq_true, if_false] at h
            exact shunt_goesNeg cs output ops h
          · rcases hpg : popGE p output ops with ⟨out', ops'⟩
            rw [show shunt (c :: cs) output ops = shunt cs out' (c :: ops') from by
              simp [shunt, hlit, hpl, hpr, hp, hpg]]
            rw [goesNeg_cons, hne1, hne2] at h
            simp only [Bool.false_eq_true, if_false] at h
            apply shunt_goesNeg cs out' (c :: ops')
            have hnum : numOpen (c :: ops') = numOpen ops := by
              have := popGE_numOpen p output ops
              rw [hpg] at this
              simp [numOpen, hne2, this]
            rw [hnum]
            exact h

/-- Corollary at the `regex_to_postfix` level. -/
theorem rpn_goesNeg (regex : List Char) (h : goesNeg 0 regex = true) :
    regex_to_rpn regex = Except.error PyErr.indexError := by
  unfold regex_to_rpn
  rw [shunt_goesNeg (addConcat regex) [] [] (by rw [goesNeg_addConcat]; exact h)]

/-- Corollary at the caller level. -/
theorem thompson_goesNeg (s : String) (h : goesNeg 0 s.toList = true) :
    thompson s = Except.error PyErr.indexError := by
  unfold thompson thompsons_construction
  rw [rpn_goesNeg s.toList h]

/-! ### Checked construction: every dict assignment must hit an empty map -/

/-- Checked dict assignment: succeeds only when the target state currently
has no transitions at all, so that the source's plain assignment
(`X.transitions[k] = v`) provably cannot discard previously stored edges. -/
def setTransChecked (a : Arena) (s : Nat) (k : Char) (v : List Nat) : Option Arena :=
  if (getState a s).transitions = [] then some (setTrans a s k v) else none

/-- `create_basic_nfa` with its dict assignment checked. -/
def create_basic_nfaChecked (ch : Char) (a : Arena) : Option (NFA × Arena) :=
  let (start, a1) := newState a
  let (accept, a2) := newState a1
  match setTransChecked a2 start ch [accept] with
  | none => none
  | some a3 => some (⟨start, accept⟩, a3)

/-- `apply_concatenation` with its dict assignment checked. -/
def apply_concatenationChecked (nfa1 nfa2 : NFA) (a : Arena) : Option (NFA × Arena) :=
  match setTransChecked a nfa1.accept epsChar [nfa2.start] with
  | none => none
  | some a1 => some (⟨nfa1.start, nfa2.accept⟩, a1)

/-- `apply_union` with its dict assignments checked. -/
def apply_unionChecked (nfa1 nfa2 : NFA) (a : Arena) : Option (NFA × Arena) :=
  let (start, a1) := newState a
  let (accept, a2) := newState a1
  match setTransChecked a2 start epsChar [nfa1.start, nfa2.start] with
  | none => none
  | some a3 =>
    match setTransChecked a3 nfa1.accept epsChar [accept] with
    | none => none
    | some a4 =>
      match setTransChecked a4 nfa2.accept epsChar [accept] with
      | none => none
      | some a5 => some (⟨start, accept⟩, a5)

/-- `apply_kleene_star` with its dict assignments checked. -/
def apply_kleene_starChecked (nfa : NFA) (a : Arena) : Option (NFA × Arena) :=
  let (start, a1) := newState a
  let (accept, a2) := newState a1
  match setTransChecked a2 start epsChar [nfa.start, accept] with
  | none => none
  | some a3 =>
    match setTransChecked a3 nfa.accept epsChar [nfa.start, accept] with
    | none => none
    | some a4 => some (⟨start, accept⟩, a4)

/-- The token loop with every dict assignment checked; `none` would mean
some assignment overwrote existing transitions. -/
def assembleChecked : List Char → List NFA → Arena →
    Option (Except PyErr (List NFA × Arena))
  | [], stack, a => some (Except.ok (stack, a))
  | c :: cs, stack, a =>
    if pyIsAlnum c then
      match create_basic_nfaChecked c a with
      | none => none
      | some (nfa, a') => assembleChecked cs (nfa :: stack) a'
    else if c == '.' then
      match stack with
      | nfa2 :: nfa1 :: rest =>
        match apply_concatenationChecked nfa1 nfa2 a with
        | none => none
        | some (nfa, a') => assembleChecked cs (nfa :: rest) a'
      | _ => some (Except.error PyErr.indexError)
    else if c == '|' then
      match stack with
      | nfa2 :: nfa1 :: rest =>
        match apply_unionChecked nfa1 nfa2 a with
        | none => none
        | some (nfa, a') => assembleChecked cs (nfa :: rest) a'
      | _ => some (Except.error PyErr.indexError)
    else if c == '*' then
      match stack with
      | nfa :: rest =>
        match apply_kleene_starChecked nfa a with
        | none => none
        | some (nfa', a') => assembleChecked cs (nfa' :: rest) a'
      | [] => some (Except.error PyErr.indexError)
    else
      assembleChecked cs stack a

/-- `thompsons_construction` with every dict assignment checked. -/
def thompsons_constructionChecked (regex : String) :
    Option (Except PyErr (NFA × Arena)) :=
  match regex_to_rpn regex.toList with
  | Except.error e => some (Except.error e)
  | Except.ok rpn =>
    match assembleChecked rpn [] [] with
    | none => none
    | some (Except.error e) => some (Except.error e)
    | some (Except.ok (stack, a)) => some (finalize stack a)

/-! ### The assembler's run-time invariant -/

/-- Invariant of the fragment stack during `thompsons_construction`:
every fragment's states exist in the arena, every fragment's accept state
has an empty transition map, the accept states of distinct stacked
fragments are distinct, and no state is marked accepting. -/
structure Inv (stack : List NFA) (a : Arena) : Prop where
  bounds : ∀ f ∈ stack, f.start < a.length ∧ f.accept < a.length
  cleanAccept : ∀ f ∈ stack, (getState a f.accept).transitions = []
  nodupAccept : (stack.map fun f => f.accept).Nodup
  noAccept : ∀ i, (getState a i).is_accept = false

theorem Inv_nil : Inv [] [] :=
  ⟨by simp, by simp, by simp, fun _ => rfl⟩

theorem getState_snoc2_self1 (a : Arena) (e e' : State) :
    getState ((a ++ [e]) ++ [e']) a.length = e := by
  rw [getState_snoc_lt _ _ _ (by simp), getState_snoc_self]

theorem getState_snoc2_self2 (a : Arena) (e e' : State) :
    getState ((a ++ [e]) ++ [e']) (a.length + 1) = e' := by
  rw [show a.length + 1 = (a ++ [e]).length from by simp, getState_snoc_self]

theorem getState_snoc2_lt (a : Arena) (e e' : State) (i : Nat) (h : i < a.length) :
    getState ((a ++ [e]) ++ [e']) i = getState a i := by
  rw [getState_snoc_lt _ _ _ (by simp; omega), getState_snoc_lt _ _ _ h]

theorem getState_out_of_range (a : Arena) (i : Nat) (h : a.length ≤ i) :
    getState a i = ⟨[], false⟩ := by
  unfold getState
  rw [List.getD_eq_getElem?_getD, List.getElem?_eq_none h]
  rfl

theorem noAccept_snoc (a : Arena) (st : State) (hst : st.is_accept = false)
    (h : ∀ i, (getState a i).is_accept = false) (i : Nat) :
    (getState (a ++ [st]) i).is_accept = false := by
  rcases lt_trichotomy i a.length with hi | hi | hi
  · rw [getState_snoc_lt _ _ _ hi]
    exact h i
  · subst hi
    rw [getState_snoc_self]
    exact hst
  · rw [getState_out_of_range _ _ (by simp; omega)]

/-! ### Unfolding equations for the fragment builders -/

theorem create_basic_eq (ch : Char) (a : Arena) :
    create_basic_nfa ch a =
      (⟨a.length, a.length + 1⟩,
       setTrans ((a ++ [⟨[], false⟩]) ++ [⟨[], false⟩]) a.length ch
         [a.length + 1]) := by
  simp [create_basic_nfa, newState]

theorem apply_concatenation_eq (n1 n2 : NFA) (a : Arena) :
    apply_concatenation n1 n2 a =
      (⟨n1.start, n2.accept⟩, setTrans a n1.accept epsChar [n2.start]) := rfl

theorem apply_union_eq (n1 n2 : NFA) (a : Arena) :
    apply_union n1 n2 a =
      (⟨a.length, a.length + 1⟩,
       setTrans (setTrans (setTrans ((a ++ [⟨[], false⟩]) ++ [⟨[], false⟩])
           a.length epsChar [n1.start, n2.start])
         n1.accept epsChar [a.length + 1])
         n2.accept epsChar [a.length + 1]) := by
  simp [apply_union, newState]

theorem apply_kleene_star_eq (n : NFA) (a : Arena) :
    apply_kleene_star n a =
      (⟨a.length, a.length + 1⟩,
       setTrans (setTrans ((a ++ [⟨[], false⟩]) ++ [⟨[], false⟩])
           a.length epsChar [n.start, a.length + 1])
         n.accept epsChar [n.start, a.length + 1]) := by
  simp [apply_kleene_star, newState]

theorem inv_basic (ch : Char) (stack : List NFA) (a : Arena) (h : Inv stack a) :
    Inv (⟨a.length, a.length + 1⟩ :: stack)
      (setTrans ((a ++ [⟨[], false⟩]) ++ [⟨[], false⟩]) a.length ch
        [a.length + 1]) := by
  have hlen : (setTrans ((a ++ [⟨[], false⟩]) ++ [⟨[], false⟩]) a.length ch
      [a.length + 1]).length = a.length + 2 := by
    rw [setTrans_length]
    simp
  refine ⟨?_, ?_, ?_, ?_⟩
  · intro f hf
    rw [hlen]
    rcases List.mem_cons.mp hf with hf | hf
    · subst hf
      refine ⟨?_, ?_⟩
      · show a.length < a.length + 2
        omega
      · show a.length + 1 < a.length + 2
        omega
    · have hb := h.bounds f hf
      omega
  · intro f hf
    rcases List.mem_cons.mp hf with hf | hf
    · subst hf
      show (getState _ (a.length + 1)).transitions = []
      rw [getState_setTrans_ne _ _ _ _ _ (by omega), getState_snoc2_self2]
    · have hb := h.bounds f hf
      rw [getState_setTrans_ne _ _ _ _ _ (by omega),
        getState_snoc2_lt _ _ _ _ hb.2]
      exact h.cleanAccept f hf
  · show ((a.length + 1 : Nat) :: stack.map fun f => f.accept).Nodup
    refine List.nodup_cons.mpr ⟨?_, h.nodupAccept⟩
    intro hmem
    rcases List.mem_map.mp hmem with ⟨f, hf, hacc⟩
    have hb := (h.bounds f hf).2
    have hacc' : f.accept = a.length + 1 := hacc
    omega
  · intro i
    rw [is_accept_setTrans]
    exact noAccept_snoc _ _ rfl (noAccept_snoc _ _ rfl h.noAccept) i

theorem basic_checked (ch : Char) (a : Arena) :
    create_basic_nfaChecked ch a = some (create_basic_nfa ch a) := by
  have hc : (getState (a ++ [⟨[], false⟩, ⟨[], false⟩])
      a.length).transitions = [] := by
    rw [show a ++ [(⟨[], false⟩ : State), ⟨[], false⟩] =
      (a ++ [⟨[], false⟩]) ++ [⟨[], false⟩] from by simp, getState_snoc2_self1]
  rw [create_basic_eq]
  simp [create_basic_nfaChecked, setTransChecked, newState, hc]

theorem inv_concat (n1 n2 : NFA) (rest : List NFA) (a : Arena)
    (h : Inv (n2 :: n1 :: rest) a) :
    Inv (⟨n1.start, n2.accept⟩ :: rest)
      (setTrans a n1.accept epsChar [n2.start]) := by
  have hb1 := h.bounds n1 (by simp)
  have hb2 := h.bounds n2 (by simp)
  have hnd := h.nodupAccept
  rw [List.map_cons, List.map_cons] at hnd
  have hnd1 := List.nodup_cons.mp hnd
  have hnd2 := List.nodup_cons.mp hnd1.2
  have hne21 : n2.accept ≠ n1.accept := by
    intro e
    exact hnd1.1 (by rw [e]; exact List.mem_cons_self _ _)
  have hnotrest1 : ∀ f ∈ rest, f.accept ≠ n1.accept := by
    intro f hf e
    exact hnd2.1 (List.mem_map.mpr ⟨f, hf, e⟩)
  refine ⟨?_, ?_, ?_, ?_⟩
  · intro f hf
    rw [setTrans_length]
    rcases List.mem_cons.mp hf with hf | hf
    · subst hf
      exact ⟨hb1.1, hb2.2⟩
    · exact h.bounds f (by simp [hf])
  · intro f hf
    rcases List.mem_cons.mp hf with hf | hf
    · subst hf
      show (getState _ n2.accept).transitions = []
      rw [getState_setTrans_ne _ _ _ _ _ hne21]
      exact h.cleanAccept n2 (by simp)
    · rw [getState_setTrans_ne _ _ _ _ _ (hnotrest1 f hf)]
      exact h.cleanAccept f (by simp [hf])
  · show (n2.accept :: rest.map fun f => f.accept).Nodup
    refine List.nodup_cons.mpr ⟨?_, hnd2.2⟩
    intro hmem
    exact hnd1.1 (List.mem_cons_of_mem _ hmem)
  · intro i
    rw [is_accept_setTrans]
    exact h.noAccept i

theorem concat_checked (n1 n2 : NFA) (rest : List NFA) (a : Arena)
    (h : Inv (n2 :: n1 :: rest) a) :
    apply_concatenationChecked n1 n2 a = some (apply_concatenation n1 n2 a) := by
  have hc := h.cleanAccept n1 (by simp)
  rw [apply_concatenation_eq]
  simp [apply_concatenationChecked, setTransChecked, hc]

theorem inv_union (n1 n2 : NFA) (rest : List NFA) (a : Arena)
    (h : Inv (n2 :: n1 :: rest) a) :
    Inv (⟨a.length, a.length + 1⟩ :: rest)
      (setTrans (setTrans (setTrans ((a ++ [⟨[], false⟩]) ++ [⟨[], false⟩])
          a.length epsChar [n1.start, n2.start])
        n1.accept epsChar [a.length + 1])
        n2.accept epsChar [a.length + 1]) := by
  have hb1 := h.bounds n1 (by simp)
  have hb2 := h.bounds n2 (by simp)
  have hnd := h.nodupAccept
  rw [List.map_cons, List.map_cons] at hnd
  have hnd1 := List.nodup_cons.mp hnd
  have hnd2 := List.nodup_cons.mp hnd1.2
  have hnotrest1 : ∀ f ∈ rest, f.accept ≠ n1.accept := by
    intro f hf e
    exact hnd2.1 (List.mem_map.mpr ⟨f, hf, e⟩)
  have hnotrest2 : ∀ f ∈ rest, f.accept ≠ n2.accept := by
    intro f hf e
    exact hnd1.1 (List.mem_cons_of_mem _ (List.mem_map.mpr ⟨f, hf, e⟩))
  have hlen : (setTrans (setTrans (setTrans ((a ++ [⟨[], false⟩]) ++ [⟨[], false⟩])
      a.length epsChar [n1.start, n2.start])
      n1.accept epsChar [a.length + 1])
      n2.accept epsChar [a.length + 1]).length = a.length + 2 := by
    rw [setTrans_length, setTrans_length, setTrans_length]
    simp
  refine ⟨?_, ?_, ?_, ?_⟩
  · intro f hf
    rw [hlen]
    rcases List.mem_cons.mp hf with hf | hf
    · subst hf
      refine ⟨?_, ?_⟩
      · show a.length < a.length + 2
        omega
      · show a.length + 1 < a.length + 2
        omega
    · have hb := h.bounds f (by simp [hf])
      omega
  · intro f hf
    rcases List.mem_cons.mp hf with hf | hf
    · subst hf
      show (getState _ (a.length + 1)).transitions = []
      rw [getState_setTrans_ne _ _ _ _ _ (by omega),
        getState_setTrans_ne _ _ _ _ _ (by omega),
        getState_setTrans_ne _ _ _ _ _ (by omega), getState_snoc2_self2]
    · have hb := (h.bounds f (by simp [hf])).2
      rw [getState_setTrans_ne _ _ _ _ _ (hnotrest2 f hf),
        getState_setTrans_ne _ _ _ _ _ (hnotrest1 f hf),
        getState_setTrans_ne _ _ _ _ _ (by omega),
        getState_snoc2_lt _ _ _ _ hb]
      exact h.cleanAccept f (by simp [hf])
  · show ((a.length + 1 : Nat) :: rest.map fun f => f.accept).Nodup
    refine List.nodup_cons.mpr ⟨?_, hnd2.2⟩
    intro hmem
    rcases List.mem_map.mp hmem with ⟨f, hf, hacc⟩
    have hb := (h.bounds f (by simp [hf])).2
    have hacc' : f.accept = a.length + 1 := hacc
    omega
  · intro i
    rw [is_accept_setTrans, is_accept_setTrans, is_accept_setTrans]
    exact noAccept_snoc _ _ rfl (noAccept_snoc _ _ rfl h.noAccept) i

theorem union_checked (n1 n2 : NFA) (rest : List NFA) (a : Arena)
    (h : Inv (n2 :: n1 :: rest) a) :
    apply_unionChecked n1 n2 a = some (apply_union n1 n2 a) := by
  have hb1 := h.bounds n1 (by simp)
  have hb2 := h.bounds n2 (by simp)
  have hc1 := h.cleanAccept n1 (by simp)
  have hc2 := h.cleanAccept n2 (by simp)
  have hnd := h.nodupAccept
  rw [List.map_cons, List.map_cons] at hnd
  have hnd1 := List.nodup_cons.mp hnd
  have hne21 : n2.accept ≠ n1.accept := by
    intro e
    exact hnd1.1 (by rw [e]; exact List.mem_cons_self _ _)
  have hassoc : a ++ [(⟨[], false⟩ : State), ⟨[], false⟩] =
      (a ++ [⟨[], false⟩]) ++ [⟨[], false⟩] := by simp
  have k1 : (getState (a ++ [⟨[], false⟩, ⟨[], false⟩])
      a.length).transitions = [] := by
    rw [hassoc, getState_snoc2_self1]
  have k2 : (getState (setTrans (a ++ [⟨[], false⟩, ⟨[], false⟩])
      a.length epsChar [n1.start, n2.start]) n1.accept).transitions = [] := by
    rw [getState_setTrans_ne _ _ _ _ _ (by omega), hassoc,
      getState_snoc2_lt _ _ _ _ hb1.2]
    exact hc1
  have k3 : (getState (setTrans (setTrans (a ++ [⟨[], false⟩, ⟨[], false⟩])
      a.length epsChar [n1.start, n2.start])
      n1.accept epsChar [a.length + 1]) n2.accept).transitions = [] := by
    rw [getState_setTrans_ne _ _ _ _ _ hne21,
      getState_setTrans_ne _ _ _ _ _ (by omega), hassoc,
      getState_snoc2_lt _ _ _ _ hb2.2]
    exact hc2
  rw [apply_union_eq]
  simp [apply_unionChecked, setTransChecked, newState, k1, k2, k3]

theorem inv_star (n : NFA) (rest : List NFA) (a : Arena)
    (h : Inv (n :: rest) a) :
    Inv (⟨a.length, a.length + 1⟩ :: rest)
      (setTrans (setTrans ((a ++ [⟨[], false⟩]) ++ [⟨[], false⟩])
          a.length epsChar [n.start, a.length + 1])
        n.accept epsChar [n.start, a.length + 1]) := by
  have hbn := h.bounds n (by simp)
  have hnd := h.nodupAccept
  rw [List.map_cons] at hnd
  have hnd1 := List.nodup_cons.mp hnd
  have hnotrest : ∀ f ∈ rest, f.accept ≠ n.accept := by
    intro f hf e
    exact hnd1.1 (List.mem_map.mpr ⟨f, hf, e⟩)
  have hlen : (setTrans (setTrans ((a ++ [⟨[], false⟩]) ++ [⟨[], false⟩])
      a.length epsChar [n.start, a.length + 1])
      n.accept epsChar [n.start, a.length + 1]).length = a.length + 2 := by
    rw [setTrans_length, setTrans_length]
    simp
  refine ⟨?_, ?_, ?_, ?_⟩
  · intro f hf
    rw [hlen]
    rcases List.mem_cons.mp hf with hf | hf
    · subst hf
      refine ⟨?_, ?_⟩
      · show a.length < a.length + 2
        omega
      · show a.length + 1 < a.length + 2
        omega
    · have hb := h.bounds f (by simp [hf])
      omega
  · intro f hf
    rcases List.mem_cons.mp hf with hf | hf
    · subst hf
      show (getState _ (a.length + 1)).transitions = []
      rw [getState_setTrans_ne _ _ _ _ _ (by omega),
        getState_setTrans_ne _ _ _ _ _ (by omega), getState_snoc2_self2]
    · have hb := (h.bounds f (by simp [hf])).2
      rw [getState_setTrans_ne _ _ _ _ _ (hnotrest f hf),
        getState_setTrans_ne _ _ _ _ _ (by omega),
        getState_snoc2_lt _ _ _ _ hb]
      exact h.cleanAccept f (by simp [hf])
  · show ((a.length + 1 : Nat) :: rest.map fun f => f.accept).Nodup
    refine List.nodup_cons.mpr ⟨?_, hnd1.2⟩
    intro hmem
    rcases List.mem_map.mp hmem with ⟨f, hf, hacc⟩
    have hb := (h.bounds f (by simp [hf])).2
    have hacc' : f.accept = a.length + 1 := hacc
    omega
  · intro i
    rw [is_accept_setTrans, is_accept_setTrans]
    exact noAccept_snoc _ _ rfl (noAccept_snoc _ _ rfl h.noAccept) i

theorem star_checked (n : NFA) (rest : List NFA) (a : Arena)
    (h : Inv (n :: rest) a) :
    apply_kleene_starChecked n a = some (apply_kleene_star n a) := by
  have hbn := h.bounds n (by simp)
  have hcn := h.cleanAccept n (by simp)
  have hassoc : a ++ [(⟨[], false⟩ : State), ⟨[], false⟩] =
      (a ++ [⟨[], false⟩]) ++ [⟨[], false⟩] := by simp
  have k1 : (getState (a ++ [⟨[], false⟩, ⟨[], false⟩])
      a.length).transitions = [] := by
    rw [hassoc, getState_snoc2_self1]
  have k2 : (getState (setTrans (a ++ [⟨[], false⟩, ⟨[], false⟩])
      a.length epsChar [n.start, a.length + 1]) n.accept).transitions = [] := by
    rw [getState_setTrans_ne _ _ _ _ _ (by omega), hassoc,
      getState_snoc2_lt _ _ _ _ hbn.2]
    exact hcn
  rw [apply_kleene_star_eq]
  simp [apply_kleene_starChecked, setTransChecked, newState, k1, k2]

/-- Main induction: from an invariant-satisfying machine state, the checked
assembler agrees with the plain assembler (no dict assignment ever finds a
non-empty transition map), and any successful outcome satisfies the
invariant again. -/
theorem assemble_sim :
    ∀ (cs : List Char) (stack : List NFA) (a : Arena), Inv stack a →
      assembleChecked cs stack a = some (assemble cs stack a) ∧
      ∀ stack' a', assemble cs stack a = Except.ok (stack', a') → Inv stack' a'
  | [], stack, a, h => by
    refine ⟨rfl, ?_⟩
    intro stack' a' he
    rw [show assemble [] stack a = Except.ok (stack, a) from rfl] at he
    cases he
    exact h
  | c :: cs, stack, a, h => by
    by_cases h1 : pyIsAlnum c = true
    · have hstep : assemble (c :: cs) stack a =
          assemble cs (⟨a.length, a.length + 1⟩ :: stack)
            (setTrans ((a ++ [⟨[], false⟩]) ++ [⟨[], false⟩]) a.length c
              [a.length + 1]) := by
        simp [assemble, h1, create_basic_eq]
      have hstepC : assembleChecked (c :: cs) stack a =
          assembleChecked cs (⟨a.length, a.length + 1⟩ :: stack)
            (setTrans ((a ++ [⟨[], false⟩]) ++ [⟨[], false⟩]) a.length c
              [a.length + 1]) := by
        have hbc := basic_checked c a
        rw [create_basic_eq] at hbc
        simp [assembleChecked, h1, hbc]
      have hinv := inv_basic c stack a h
      have ih := assemble_sim cs _ _ hinv
      rw [hstep, hstepC]
      exact ih
    · by_cases h2 : (c == '.') = true
      · have hcc : c = '.' := by simpa using h2
        subst hcc
        rcases stack with _ | ⟨n2, stack⟩
        · refine ⟨rfl, ?_⟩
          intro stack' a' he
          rw [show assemble ('.' :: cs) [] a =
            Except.error PyErr.indexError from rfl] at he
          cases he
        · rcases stack with _ | ⟨n1, rest⟩
          · refine ⟨rfl, ?_⟩
            intro stack' a' he
            rw [show assemble ('.' :: cs) [n2] a =
              Except.error PyErr.indexError from rfl] at he
            cases he
          · have hstep : assemble ('.' :: cs) (n2 :: n1 :: rest) a =
                assemble cs (⟨n1.start, n2.accept⟩ :: rest)
                  (setTrans a n1.accept epsChar [n2.start]) := by
              simp [assemble, show pyIsAlnum '.' = false from rfl,
                apply_concatenation_eq]
            have hstepC : assembleChecked ('.' :: cs) (n2 :: n1 :: rest) a =
                assembleChecked cs (⟨n1.start, n2.accept⟩ :: rest)
                  (setTrans a n1.accept epsChar [n2.start]) := by
              have hcC := concat_checked n1 n2 rest a h
              rw [apply_concatenation_eq] at hcC
              simp [assembleChecked, show pyIsAlnum '.' = false from rfl, hcC]
            have hinv := inv_concat n1 n2 rest a h
            have ih := assemble_sim cs _ _ hinv
            rw [hstep, hstepC]
            exact ih
      · by_cases h3 : (c == '|') = true
        · have hcc : c = '|' := by simpa using h3
          subst hcc
          rcases stack with _ | ⟨n2, stack⟩
          · refine ⟨rfl, ?_⟩
            intro stack' a' he
            rw [show assemble ('|' :: cs) [] a =
              Except.error PyErr.indexError from rfl] at he
            cases he
          · rcases stack with _ | ⟨n1, rest⟩
            · refine ⟨rfl, ?_⟩
              intro stack' a' he
              rw [show assemble ('|' :: cs) [n2] a =
                Except.error PyErr.indexError from rfl] at he
              cases he
            · have hstep : assemble ('|' :: cs) (n2 :: n1 :: rest) a =
                  assemble cs (⟨a.length, a.length + 1⟩ :: rest)
                    (setTrans (setTrans (setTrans
                        ((a ++ [⟨[], false⟩]) ++ [⟨[], false⟩])
                        a.length epsChar [n1.start, n2.start])
                      n1.accept epsChar [a.length + 1])
                      n2.accept epsChar [a.length + 1]) := by
                simp [assemble, show pyIsAlnum '|' = false from rfl,
                  show (('|' : Char) == '.') = false from rfl, apply_union_eq]
              have hstepC : assembleChecked ('|' :: cs) (n2 :: n1 :: rest) a =
                  assembleChecked cs (⟨a.length, a.length + 1⟩ :: rest)
                    (setTrans (setTrans (setTrans
                        ((a ++ [⟨[], false⟩]) ++ [⟨[], false⟩])
                        a.length epsChar [n1.start, n2.start])
                      n1.accept epsChar [a.length + 1])
                      n2.accept epsChar [a.length + 1]) := by
                have hcC := union_checked n1 n2 rest a h
                rw [apply_union_eq] at hcC
                simp [assembleChecked, show pyIsAlnum '|' = false from rfl,
                  show (('|' : Char) == '.') = false from rfl, hcC]
              have hinv := inv_union n1 n2 rest a h
              have ih := assemble_sim cs _ _ hinv
              rw [hstep, hstepC]
              exact ih
        · by_cases h4 : (c == '*') = true
          · have hcc : c = '*' := by simpa using h4
            subst hcc
            rcases stack with _ | ⟨n, rest⟩
            · refine ⟨rfl, ?_⟩
              intro stack' a' he
              rw [show assemble ('*' :: cs) [] a =
                Except.error PyErr.indexError from rfl] at he
              cases he
            · have hstep : assemble ('*' :: cs) (n :: rest) a =
                  assemble cs (⟨a.length, a.length + 1⟩ :: rest)
                    (setTrans (setTrans ((a ++ [⟨[], false⟩]) ++ [⟨[], false⟩])
                        a.length epsChar [n.start, a.length + 1])
                      n.accept epsChar [n.start, a.length + 1]) := by
                simp [assemble, show pyIsAlnum '*' = false from rfl,
                  show (('*' : Char) == '.') = false from rfl,
                  show (('*' : Char) == '|') = false from rfl,
                  apply_kleene_star_eq]
              have hstepC : assembleChecked ('*' :: cs) (n :: rest) a =
                  assembleChecked cs (⟨a.length, a.length + 1⟩ :: rest)
                    (setTrans (setTrans ((a ++ [⟨[], false⟩]) ++ [⟨[], false⟩])
                        a.length epsChar [n.start, a.length + 1])
                      n.accept epsChar [n.start, a.length + 1]) := by
                have hcC := star_checked n rest a h
                rw [apply_kleene_star_eq] at hcC
                simp [assembleChecked, show pyIsAlnum '*' = false from rfl,
                  show (('*' : Char) == '.') = false from rfl,
                  show (('*' : Char) == '|') = false from rfl, hcC]
              have hinv := inv_star n rest a h
              have ih := assemble_sim cs _ _ hinv
              rw [hstep, hstepC]
              exact ih
          · have hstep : assemble (c :: cs) stack a = assemble cs stack a := by
              simp [assemble, h1, h2, h3, h4]
            have hstepC : assembleChecked (c :: cs) stack a =
                assembleChecked cs stack a := by
              simp [assembleChecked, h1, h2, h3, h4]
            rw [hstep, hstepC]
            exact assemble_sim cs stack a h

/-- The checked construction agrees with the construction on every input:
no dict assignment performed during any construction ever targets a state
that already has transitions. -/
theorem construction_checked_eq (s : String) :
    thompsons_constructionChecked s = some (thompsons_construction s) := by
  unfold thompsons_constructionChecked thompsons_construction
  cases hr : regex_to_rpn s.toList with
  | error e => rfl
  | ok rpn =>
    show (match assembleChecked rpn [] [] with
      | none => none
      | some (Except.error e) => some (Except.error e)
      | some (Except.ok (stack, a)) => some (finalize stack a)) =
      some (match assemble rpn [] [] with
      | Except.error e => Except.error e
      | Except.ok (stack, a) => finalize stack a)
    rw [(assemble_sim rpn [] [] Inv_nil).1]
    cases ha : assemble rpn [] [] with
    | error e => rfl
    | ok p =>
      rcases p with ⟨stack, a⟩
      rfl

/-- Any successful construction's surviving fragment and arena satisfy the
invariant. -/
theorem construction_inv (s : String) (nfa : NFA) (a : Arena)
    (h : thompsons_construction s = Except.ok (nfa, a)) : Inv [nfa] a := by
  unfold thompsons_construction at h
  cases hr : regex_to_rpn s.toList with
  | error e =>
    rw [hr] at h
    exact Except.noConfusion (show (Except.error e : Except PyErr (NFA × Arena)) =
      Except.ok (nfa, a) from h)
  | ok rpn =>
    rw [hr] at h
    have h' : (match assemble rpn [] [] with
        | Except.error e => Except.error e
        | Except.ok (stack, a') => finalize stack a') = Except.ok (nfa, a) := h
    cases ha : assemble rpn [] [] with
    | error e =>
      rw [ha] at h'
      exact Except.noConfusion (show (Except.error e : Except PyErr (NFA × Arena)) =
        Except.ok (nfa, a) from h')
    | ok p =>
      rcases p with ⟨stack, a0⟩
      rw [ha] at h'
      have h'' : finalize stack a0 = Except.ok (nfa, a) := h'
      have hinv := (assemble_sim rpn [] [] Inv_nil).2 stack a0 ha
      rcases stack with _ | ⟨n, rest⟩
      · rw [show finalize [] a0 = Except.error PyErr.valueError from rfl] at h''
        exact Except.noConfusion h''
      · rcases rest with _ | ⟨m, rest2⟩
        · rw [show finalize [n] a0 = Except.ok (n, a0) from rfl,
            Except.ok.injEq, Prod.mk.injEq] at h''
          obtain ⟨h1, h2⟩ := h''
          subst h1
          subst h2
          exact hinv
        · rw [show finalize (n :: m :: rest2) a0 =
            Except.error PyErr.valueError from rfl] at h''
          exact Except.noConfusion h''

/-- Marking the accept state makes it the unique accepting state, provided
no state was accepting before. -/
theorem markAccept_is_accept (nfa : NFA) (a : Arena)
    (hacc : nfa.accept < a.length)
    (hall : ∀ i, (getState a i).is_accept = false) (i : Nat) :
    ((getState (markAccept nfa a) i).is_accept = true ↔ i = nfa.accept) := by
  constructor
  · intro hi
    by_contra hne
    rw [markAccept, getState_modifyIdx_ne _ _ _ _ hne, hall i] at hi
    exact Bool.false_ne_true hi
  · intro hi
    subst hi
    rw [markAccept, getState_modifyIdx_self _ _ _ hacc]

/-- Graph isomorphism between two construction results: a relabeling `φ`
that is a bijection between the two arenas' index ranges, maps start to
start and accept to accept, preserves the accepting flag, and carries the
transition structure over exactly (same symbols in the same dict order,
same ordered target lists up to `φ`). -/
def ArenaIso (φ : Nat → Nat) (n1 n2 : NFA) (a1 a2 : Arena) : Prop :=
  a2.length = a1.length ∧
  (∀ i, i < a1.length → φ i < a2.length) ∧
  (∀ i j, i < a1.length → j < a1.length → φ i = φ j → i = j) ∧
  (∀ j, j < a2.length → ∃ i, i < a1.length ∧ φ i = j) ∧
  φ n1.start = n2.start ∧ φ n1.accept = n2.accept ∧
  ∀ i, i < a1.length →
    (getState a2 (φ i)).is_accept = (getState a1 i).is_accept ∧
    (getState a2 (φ i)).transitions =
      (getState a1 i).transitions.map fun p => (p.1, p.2.map φ)

theorem map_id_trans (l : List (Char × List Nat)) :
    (l.map fun p => (p.1, p.2.map fun x => x)) = l := by
  induction l with
  | nil => rfl
  | cons p rest ih => simp [ih]

theorem arenaIso_refl (n : NFA) (a : Arena) : ArenaIso (fun x => x) n n a a := by
  refine ⟨rfl, fun i hi => hi, fun i j _ _ e => e, fun j hj => ⟨j, hj, rfl⟩,
    rfl, rfl, ?_⟩
  intro i _
  exact ⟨rfl, (map_id_trans _).symm⟩

/-! ### Claim theorems -/

/-- C1 counterexample: the claim says `thompson "(a"` raises SyntaxError and
no NFA is returned; in fact the leftover `(` is popped into the postfix
output (lines 72-73 have no unmatched-`(` check), silently skipped by the
assembler, and a two-state NFA is returned. -/
theorem C1_counterexample :
    thompson "(a" =
      Except.ok (⟨0, 1⟩, [⟨[('a', [1])], false⟩, ⟨[], true⟩]) ∧
    ∀ e : PyErr, thompson "(a" ≠ Except.error e := by
  refine ⟨rfl, ?_⟩
  intro e he
  rw [show thompson "(a" =
    Except.ok (⟨0, 1⟩, [⟨[('a', [1])], false⟩, ⟨[], true⟩]) from rfl] at he
  exact Except.noConfusion he

/-- C1 (amended): a `)` read when no group is open makes the conversion
fail with an uncaught IndexError (`operators.pop()` on an empty list,
line 66) — in particular `thompson "a)"` raises IndexError and returns no
NFA; but an unmatched `(` is never detected: it is popped into the postfix
output at end of input and silently skipped by the assembler, so
`thompson "(a"` returns a two-state NFA instead of raising. -/
theorem C1_unbalanced_parens :
    (∀ s : String, goesNeg 0 s.toList = true →
      thompson s = Except.error PyErr.indexError) ∧
    thompson "a)" = Except.error PyErr.indexError ∧
    thompson "(a" =
      Except.ok (⟨0, 1⟩, [⟨[('a', [1])], false⟩, ⟨[], true⟩]) :=
  ⟨fun s h => thompson_goesNeg s h, rfl, rfl⟩

theorem C1_unbalanced_parens_witness :
    goesNeg 0 "a)".toList = true ∧
    thompson "a)" = Except.error PyErr.indexError :=
  ⟨by decide, C1_unbalanced_parens.1 "a)" (by decide)⟩

/-- C2: the claim (and spec §7) requires an UnsupportedCharacter error for
`thompson "a$"`; the code instead matches `'$'` against no branch of the
conversion loop (lines 58-71), silently drops it, and successfully returns
the NFA of `"a"`. -/
theorem C2_silent_drop :
    thompson "a$" = thompson "a" ∧
    thompson "a$" =
      Except.ok (⟨0, 1⟩, [⟨[('a', [1])], false⟩, ⟨[], true⟩]) :=
  ⟨rfl, rfl⟩

/-- C3 counterexample: operator underflow does not fail with the
MalformedExpression signal (the explicit `ValueError` of line 97): the
`stack.pop()` at line 90 raises an uncaught IndexError instead, as
`thompson "a|"` shows. -/
theorem C3_counterexample :
    thompson "a|" = Except.error PyErr.indexError ∧
    PyErr.indexError ≠ malformedExpressionErr :=
  ⟨rfl, by decide⟩

/-- C3 (amended): the final check fails with `ValueError` (the code's
MalformedExpression signal) whenever not exactly one fragment remains —
in particular `thompson ""` fails that way — but operator underflow inside
the token loop fails earlier with an uncaught IndexError, not with
MalformedExpression. In every failing case no NFA is returned. -/
theorem C3_final_stack :
    (∀ (stack : List NFA) (a : Arena), stack.length ≠ 1 →
      finalize stack a = Except.error malformedExpressionErr) ∧
    thompson "" = Except.error malformedExpressionErr ∧
    thompson "a|" = Except.error PyErr.indexError := by
  refine ⟨?_, rfl, rfl⟩
  intro stack a hlen
  rcases stack with _ | ⟨n, rest⟩
  · rfl
  · rcases rest with _ | ⟨m, rest2⟩
    · exact absurd rfl hlen
    · rfl

theorem C3_final_stack_witness :
    finalize [] [] = Except.error malformedExpressionErr :=
  C3_final_stack.1 [] [] (by decide)

/-- C7: the converter's precedence table orders star above concatenation
above union, and on reading an operator `op` the loop pops to the output
exactly the maximal prefix of the operator stack whose entries are not `(`
and have precedence at least that of `op`, then pushes `op` on what
remains. -/
theorem C7_shunting_precedence :
    precedence? '*' = some 3 ∧ precedence? '.' = some 2 ∧
    precedence? '|' = some 1 ∧
    ∀ (c : Char) (p : Nat) (cs output ops : List Char),
      precedence? c = some p →
      shunt (c :: cs) output ops =
        shunt cs
          (output ++ ops.takeWhile fun o =>
            o != '(' && decide (p ≤ (precedence? o).getD 0))
          (c :: ops.dropWhile fun o =>
            o != '(' && decide (p ≤ (precedence? o).getD 0)) := by
  refine ⟨rfl, rfl, rfl, ?_⟩
  intro c p cs output ops hp
  rcases precedence_cases c p hp with hc | hc | hc
  · subst hc
    rw [show precedence? '*' = some 3 from rfl] at hp
    injection hp with hp3
    subst hp3
    rw [show shunt ('*' :: cs) output ops =
        (match popGE 3 output ops with
         | (output', ops') => shunt cs output' ('*' :: ops')) from by
      simp [shunt, show isLit '*' = false from rfl,
        show (('*' : Char) == '(') = false from rfl,
        show (('*' : Char) == ')') = false from rfl,
        show precedence? '*' = some 3 from rfl]]
    rw [popGE_eq]
  · subst hc
    rw [show precedence? '.' = some 2 from rfl] at hp
    injection hp with hp2
    subst hp2
    rw [show shunt ('.' :: cs) output ops =
        (match popGE 2 output ops with
         | (output', ops') => shunt cs output' ('.' :: ops')) from by
      simp [shunt, show isLit '.' = false from rfl,
        show (('.' : Char) == '(') = false from rfl,
        show (('.' : Char) == ')') = false from rfl,
        show precedence? '.' = some 2 from rfl]]
    rw [popGE_eq]
  · subst hc
    rw [show precedence? '|' = some 1 from rfl] at hp
    injection hp with hp1
    subst hp1
    rw [show shunt ('|' :: cs) output ops =
        (match popGE 1 output ops with
         | (output', ops') => shunt cs output' ('|' :: ops')) from by
      simp [shunt, show isLit '|' = false from rfl,
        show (('|' : Char) == '(') = false from rfl,
        show (('|' : Char) == ')') = false from rfl,
        show precedence? '|' = some 1 from rfl]]
    rw [popGE_eq]

theorem C7_shunting_precedence_witness :
    precedence? '.' = some 2 ∧
    shunt ['.'] ['a'] ['*'] =
      shunt []
        (['a'] ++ List.takeWhile (fun o =>
          o != '(' && decide (2 ≤ (precedence? o).getD 0)) ['*'])
        ('.' :: List.dropWhile (fun o =>
          o != '(' && decide (2 ≤ (precedence? o).getD 0)) ['*']) :=
  ⟨rfl, C7_shunting_precedence.2.2.2 '.' 2 [] ['a'] ['*'] rfl⟩

/-- C8: construction is a pure function of the input string; two runs on
the same input agree — either the same error, or NFAs whose graphs are
isomorphic (here: via the identity relabeling), with identical state
counts, flags, and deterministic transition order. -/
theorem C8_deterministic (s : String) (r1 r2 : Except PyErr (NFA × Arena))
    (h1 : r1 = thompson s) (h2 : r2 = thompson s) :
    (∃ e, r1 = Except.error e ∧ r2 = Except.error e) ∨
    (∃ n1 a1 n2 a2, r1 = Except.ok (n1, a1) ∧ r2 = Except.ok (n2, a2) ∧
      ArenaIso (fun x => x) n1 n2 a1 a2) := by
  subst h1
  subst h2
  cases hr : thompson s with
  | error e => exact Or.inl ⟨e, rfl, rfl⟩
  | ok p =>
    rcases p with ⟨n, a⟩
    exact Or.inr ⟨n, a, n, a, rfl, rfl, arenaIso_refl n a⟩

theorem C8_deterministic_witness :
    (∃ e, thompson "a" = Except.error e ∧ thompson "a" = Except.error e) ∨
    (∃ n1 a1 n2 a2, thompson "a" = Except.ok (n1, a1) ∧
      thompson "a" = Except.ok (n2, a2) ∧
      ArenaIso (fun x => x) n1 n2 a1 a2) :=
  C8_deterministic "a" (thompson "a") (thompson "a") rfl rfl

/-- C9: on a successful construction no state is accepting before the
caller's single `is_accept = True` write; after that write, a state is
accepting exactly when it is the surviving fragment's accept state; and
every intermediate assembler state reached from the empty machine also has
no accepting state. -/
theorem C9_single_accept (s : String) (nfa : NFA) (a : Arena)
    (h : thompsons_construction s = Except.ok (nfa, a)) :
    (∀ i, (getState a i).is_accept = false) ∧
    nfa.accept < a.length ∧
    (∀ i, ((getState (markAccept nfa a) i).is_accept = true ↔ i = nfa.accept)) ∧
    (∀ (cs : List Char) (stack' : List NFA) (a' : Arena),
      assemble cs [] [] = Except.ok (stack', a') →
      ∀ i, (getState a' i).is_accept = false) := by
  have hinv := construction_inv s nfa a h
  have hacc := (hinv.bounds nfa (by simp)).2
  refine ⟨hinv.noAccept, hacc,
    fun i => markAccept_is_accept nfa a hacc hinv.noAccept i, ?_⟩
  intro cs stack' a' he i
  exact ((assemble_sim cs [] [] Inv_nil).2 stack' a' he).noAccept i

theorem C9_single_accept_witness :
    (∀ i, (getState [⟨[('a', [1])], false⟩, ⟨[], false⟩] i).is_accept = false) ∧
    (⟨0, 1⟩ : NFA).accept <
      ([⟨[('a', [1])], false⟩, ⟨[], false⟩] : Arena).length ∧
    (∀ i, ((getState (markAccept ⟨0, 1⟩
        [⟨[('a', [1])], false⟩, ⟨[], false⟩]) i).is_accept = true ↔
      i = (⟨0, 1⟩ : NFA).accept)) ∧
    (∀ (cs : List Char) (stack' : List NFA) (a' : Arena),
      assemble cs [] [] = Except.ok (stack', a') →
      ∀ i, (getState a' i).is_accept = false) :=
  C9_single_accept "a" ⟨0, 1⟩ [⟨[('a', [1])], false⟩, ⟨[], false⟩] rfl

/-- C10: whenever the assembler, started on the empty machine, reaches a
machine state, every fragment on its stack has an accept state whose
transition map is empty; consequently the checked construction — in which
every dict assignment fails unless the target map is empty — agrees with
the real construction on every input: no assignment ever overwrites
previously stored transitions. -/
theorem C10_clean_accepts :
    (∀ (cs : List Char) (stack' : List NFA) (a' : Arena),
      assemble cs [] [] = Except.ok (stack', a') →
      ∀ f ∈ stack', (getState a' f.accept).transitions = []) ∧
    ∀ s : String,
      thompsons_constructionChecked s = some (thompsons_construction s) := by
  refine ⟨?_, construction_checked_eq⟩
  intro cs stack' a' he f hf
  exact ((assemble_sim cs [] [] Inv_nil).2 stack' a' he).cleanAccept f hf

theorem C10_clean_accepts_witness :
    (getState ([⟨[('a', [1])], false⟩, ⟨[], false⟩] : Arena)
      (NFA.mk 0 1).accept).transitions = [] :=
  C10_clean_accepts.1 ['a'] [⟨0, 1⟩] [⟨[('a', [1])], false⟩, ⟨[], false⟩] rfl
    ⟨0, 1⟩ (by simp)

/-- C4: on the concatenation token the assembler pops f2 then f1 (the
head of the stack is the most recently pushed fragment), adds exactly one
epsilon transition from f1's accept to f2's start (the accept's map was
empty, so the assignment stores exactly that one edge), pushes
Fragment(f1.start, f2.accept), and creates no states; `thompson "ab"` is
the 4-state chain start --a--> s1 --eps--> s2 --b--> accept. -/
theorem C4_concatenation (cs : List Char) (n1 n2 : NFA) (rest : List NFA)
    (a : Arena) (hacc : n1.accept < a.length)
    (hclean : (getState a n1.accept).transitions = []) :
    assemble ('.' :: cs) (n2 :: n1 :: rest) a =
      assemble cs (⟨n1.start, n2.accept⟩ :: rest)
        (setTrans a n1.accept epsChar [n2.start]) ∧
    (setTrans a n1.accept epsChar [n2.start]).length = a.length ∧
    getState (setTrans a n1.accept epsChar [n2.start]) n1.accept =
      ⟨[(epsChar, [n2.start])], (getState a n1.accept).is_accept⟩ ∧
    (∀ j, j ≠ n1.accept →
      getState (setTrans a n1.accept epsChar [n2.start]) j = getState a j) ∧
    thompson "ab" =
      Except.ok (⟨0, 3⟩,
        [⟨[('a', [1])], false⟩, ⟨[(epsChar, [2])], false⟩,
         ⟨[('b', [3])], false⟩, ⟨[], true⟩]) := by
  refine ⟨?_, setTrans_length a _ _ _, ?_, ?_, rfl⟩
  · simp [assemble, show pyIsAlnum '.' = false from rfl, apply_concatenation_eq]
  · rw [getState_setTrans_self _ _ _ _ hacc, hclean]
    rfl
  · intro j hj
    exact getState_setTrans_ne _ _ _ _ _ hj

theorem C4_concatenation_witness :
    (1 : Nat) < ([⟨[('a', [1])], false⟩, ⟨[], false⟩, ⟨[('b', [3])], false⟩,
      ⟨[], false⟩] : Arena).length ∧
    assemble ['.'] [⟨2, 3⟩, ⟨0, 1⟩]
        [⟨[('a', [1])], false⟩, ⟨[], false⟩, ⟨[('b', [3])], false⟩, ⟨[], false⟩] =
      assemble [] [⟨0, 3⟩]
        (setTrans [⟨[('a', [1])], false⟩, ⟨[], false⟩, ⟨[('b', [3])], false⟩,
          ⟨[], false⟩] 1 epsChar [2]) :=
  ⟨by decide,
    (C4_concatenation [] ⟨0, 1⟩ ⟨2, 3⟩ []
      [⟨[('a', [1])], false⟩, ⟨[], false⟩, ⟨[('b', [3])], false⟩, ⟨[], false⟩]
      (by decide) (by decide)).1⟩

/-- C5: on the union token the assembler pops f2 then f1, creates exactly
two new states (the arena grows by two), gives the new start exactly the
ordered epsilon fan-out [f1.start, f2.start], gives f1's and f2's accepts
exactly one epsilon edge each into the new accept, leaves the new accept
edgeless and every other state untouched, and pushes Fragment(new start,
new accept); `thompson "a|b"` is the 6-state automaton. -/
theorem C5_union (cs : List Char) (n1 n2 : NFA) (rest : List NFA)
    (a a' : Arena) (hacc1 : n1.accept < a.length)
    (hacc2 : n2.accept < a.length) (hne : n2.accept ≠ n1.accept)
    (hclean1 : (getState a n1.accept).transitions = [])
    (hclean2 : (getState a n2.accept).transitions = [])
    (ha' : a' = setTrans (setTrans (setTrans
        ((a ++ [⟨[], false⟩]) ++ [⟨[], false⟩])
        a.length epsChar [n1.start, n2.start])
      n1.accept epsChar [a.length + 1])
      n2.accept epsChar [a.length + 1]) :
    assemble ('|' :: cs) (n2 :: n1 :: rest) a =
      assemble cs (⟨a.length, a.length + 1⟩ :: rest) a' ∧
    a'.length = a.length + 2 ∧
    getState a' a.length = ⟨[(epsChar, [n1.start, n2.start])], false⟩ ∧
    getState a' (a.length + 1) = ⟨[], false⟩ ∧
    getState a' n1.accept =
      ⟨[(epsChar, [a.length + 1])], (getState a n1.accept).is_accept⟩ ∧
    getState a' n2.accept =
      ⟨[(epsChar, [a.length + 1])], (getState a n2.accept).is_accept⟩ ∧
    (∀ j, j ≠ a.length → j ≠ a.length + 1 → j ≠ n1.accept → j ≠ n2.accept →
      getState a' j = getState a j) ∧
    thompson "a|b" =
      Except.ok (⟨4, 5⟩,
        [⟨[('a', [1])], false⟩, ⟨[(epsChar, [5])], false⟩,
         ⟨[('b', [3])], false⟩, ⟨[(epsChar, [5])], false⟩,
         ⟨[(epsChar, [0, 2])], false⟩, ⟨[], true⟩]) := by
  subst ha'
  refine ⟨?_, ?_, ?_, ?_, ?_, ?_, ?_, rfl⟩
  · simp [assemble, show pyIsAlnum '|' = false from rfl,
      show (('|' : Char) == '.') = false from rfl, apply_union_eq]
  · rw [setTrans_length, setTrans_length, setTrans_length]
    simp
  · rw [getState_setTrans_ne _ _ _ _ _ (by omega),
      getState_setTrans_ne _ _ _ _ _ (by omega),
      getState_setTrans_self _ _ _ _ (by
        simp only [List.length_append, List.length_cons, List.length_nil]
        omega),
      getState_snoc2_self1]
    rfl
  · rw [getState_setTrans_ne _ _ _ _ _ (by omega),
      getState_setTrans_ne _ _ _ _ _ (by omega),
      getState_setTrans_ne _ _ _ _ _ (by omega),
      getState_snoc2_self2]
  · rw [getState_setTrans_ne _ _ _ _ _ (by omega),
      getState_setTrans_self _ _ _ _ (by
        rw [setTrans_length]
        simp only [List.length_append, List.length_cons, List.length_nil]
        omega),
      getState_setTrans_ne _ _ _ _ _ (by omega),
      getState_snoc2_lt _ _ _ _ hacc1, hclean1]
    rfl
  · rw [getState_setTrans_self _ _ _ _ (by
        rw [setTrans_length, setTrans_length]
        simp only [List.length_append, List.length_cons, List.length_nil]
        omega),
      getState_setTrans_ne _ _ _ _ _ hne,
      getState_setTrans_ne _ _ _ _ _ (by omega),
      getState_snoc2_lt _ _ _ _ hacc2, hclean2]
    rfl
  · intro j hj1 hj2 hj3 hj4
    rw [getState_setTrans_ne _ _ _ _ _ hj4,
      getState_setTrans_ne _ _ _ _ _ hj3,
      getState_setTrans_ne _ _ _ _ _ hj1]
    have hcase : j < a.length ∨ a.length + 1 < j := by omega
    rcases hcase with hj | hj
    · exact getState_snoc2_lt _ _ _ _ hj
    · rw [getState_out_of_range _ _ (by
          simp only [List.length_append, List.length_cons, List.length_nil]
          omega),
        getState_out_of_range _ _ (by omega)]

theorem C5_union_witness :
    (1 : Nat) < ([⟨[('a', [1])], false⟩, ⟨[], false⟩, ⟨[('b', [3])], false⟩,
      ⟨[], false⟩] : Arena).length ∧
    assemble ['|'] [⟨2, 3⟩, ⟨0, 1⟩]
        [⟨[('a', [1])], false⟩, ⟨[], false⟩, ⟨[('b', [3])], false⟩, ⟨[], false⟩] =
      assemble [] [⟨4, 5⟩]
        (setTrans (setTrans (setTrans
            (([⟨[('a', [1])], false⟩, ⟨[], false⟩, ⟨[('b', [3])], false⟩,
              ⟨[], false⟩] : Arena) ++ [⟨[], false⟩] ++ [⟨[], false⟩])
            4 epsChar [0, 2]) 1 epsChar [5]) 3 epsChar [5]) :=
  ⟨by decide,
    (C5_union [] ⟨0, 1⟩ ⟨2, 3⟩ []
      [⟨[('a', [1])], false⟩, ⟨[], false⟩, ⟨[('b', [3])], false⟩, ⟨[], false⟩]
      _ (by decide) (by decide) (by decide) (by decide) (by decide) rfl).1⟩

/-- C6: on the star token the assembler pops one fragment f, creates
exactly two new states, gives the new start the ordered epsilon fan-out
[f.start, new accept], gives f's accept the same fan-out (the cyclic
back-edge to f.start plus the exit to the new accept), leaves the new
accept edgeless and every other state untouched, and pushes
Fragment(new start, new accept); `thompson "a*"` is the 4-state automaton
with those two epsilon branches. -/
theorem C6_star (cs : List Char) (n : NFA) (rest : List NFA)
    (a a' : Arena) (hacc : n.accept < a.length)
    (hclean : (getState a n.accept).transitions = [])
    (ha' : a' = setTrans (setTrans ((a ++ [⟨[], false⟩]) ++ [⟨[], false⟩])
        a.length epsChar [n.start, a.length + 1])
      n.accept epsChar [n.start, a.length + 1]) :
    assemble ('*' :: cs) (n :: rest) a =
      assemble cs (⟨a.length, a.length + 1⟩ :: rest) a' ∧
    a'.length = a.length + 2 ∧
    getState a' a.length =
      ⟨[(epsChar, [n.start, a.length + 1])], false⟩ ∧
    getState a' (a.length + 1) = ⟨[], false⟩ ∧
    getState a' n.accept =
      ⟨[(epsChar, [n.start, a.length + 1])], (getState a n.accept).is_accept⟩ ∧
    (∀ j, j ≠ a.length → j ≠ a.length + 1 → j ≠ n.accept →
      getState a' j = getState a j) ∧
    thompson "a*" =
      Except.ok (⟨2, 3⟩,
        [⟨[('a', [1])], false⟩, ⟨[(epsChar, [0, 3])], false⟩,
         ⟨[(epsChar, [0, 3])], false⟩, ⟨[], true⟩]) := by
  subst ha'
  refine ⟨?_, ?_, ?_, ?_, ?_, ?_, rfl⟩
  · simp [assemble, show pyIsAlnum '*' = false from rfl,
      show (('*' : Char) == '.') = false from rfl,
      show (('*' : Char) == '|') = false from rfl, apply_kleene_star_eq]
  · rw [setTrans_length, setTrans_length]
    simp
  · rw [getState_setTrans_ne _ _ _ _ _ (by omega),
      getState_setTrans_self _ _ _ _ (by
        simp only [List.length_append, List.length_cons, List.length_nil]
        omega),
      getState_snoc2_self1]
    rfl
  · rw [getState_setTrans_ne _ _ _ _ _ (by omega),
      getState_setTrans_ne _ _ _ _ _ (by omega),
      getState_snoc2_self2]
  · rw [getState_setTrans_self _ _ _ _ (by
        rw [setTrans_length]
        simp only [List.length_append, List.length_cons, List.length_nil]
        omega),
      getState_setTrans_ne _ _ _ _ _ (by omega),
      getState_snoc2_lt _ _ _ _ hacc, hclean]
    rfl
  · intro j hj1 hj2 hj3
    rw [getState_setTrans_ne _ _ _ _ _ hj3,
      getState_setTrans_ne _ _ _ _ _ hj1]
    have hcase : j < a.length ∨ a.length + 1 < j := by omega
    rcases hcase with hj | hj
    · exact getState_snoc2_lt _ _ _ _ hj
    · rw [getState_out_of_range _ _ (by
          simp only [List.length_append, List.length_cons, List.length_nil]
          omega),
        getState_out_of_range _ _ (by omega)]

theorem C6_star_witness :
    (1 : Nat) < ([⟨[('a', [1])], false⟩, ⟨[], false⟩] : Arena).length ∧
    assemble ['*'] [⟨0, 1⟩] [⟨[('a', [1])], false⟩, ⟨[], false⟩] =
      assemble [] [⟨2, 3⟩]
        (setTrans (setTrans
            (([⟨[('a', [1])], false⟩, ⟨[], false⟩] : Arena) ++
              [⟨[], false⟩] ++ [⟨[], false⟩])
            2 epsChar [0, 3]) 1 epsChar [0, 3]) :=
  ⟨by decide,
    (C6_star [] ⟨0, 1⟩ [] [⟨[('a', [1])], false⟩, ⟨[], false⟩]
      _ (by decide) (by decide) rfl).1⟩
end RegexToNFA
